import Mathlib

/-!
Verification of the micro-agent core runtime against its specification.

The development shallowly embeds the parts of the TypeScript source that the
checked properties are about:

* `packages/core/src/providers/complexity.ts` — complexity scoring bands;
* the model router (`ModelRouter`) — nearest-level fallback selection;
* the memory store (`MemoryStore`) — vector-column name encoding/decoding,
  hybrid search merging, `updateVector`;
* the migration engine (`EmbeddingMigration`) — batch processing and
  state-file loading;
* the agent executor (`AgentExecutor`) — error-message redaction and
  session-history maintenance.

JavaScript machine-level details are modelled as follows: strings are
`List Char`, numbers that can be fractional are `ℚ`, epoch-millisecond
timestamps are `ℕ`, JS `Map` is an insertion-ordered association list, and
the wall clock (`Date.now()`) is an explicit parameter.
-/

/-! ## Complexity bands (`packages/core/src/providers/complexity.ts`) -/

/-- Model capability levels, `ModelLevel` in `config/schema`. -/
inductive ModelLevel where
  | fast | low | medium | high | ultra
deriving DecidableEq, Repr

/-- `COMPLEXITY_THRESHOLDS`: insertion-ordered `(level, [min, max))` bands. -/
def COMPLEXITY_THRESHOLDS : List (ModelLevel × ℚ × ℚ) :=
  [(.fast, 0, 20), (.low, 20, 40), (.medium, 40, 60), (.high, 60, 80), (.ultra, 80, 100)]

/-- `complexityToLevel`: first band with `min ≤ score < max`, else `ultra`. -/
def complexityToLevel (score : ℚ) : ModelLevel :=
  go COMPLEXITY_THRESHOLDS
where
  go : List (ModelLevel × ℚ × ℚ) → ModelLevel
    | [] => .ultra
    | (level, lo, hi) :: rest => if lo ≤ score ∧ score < hi then level else go rest

/-- `LEVEL_PRIORITY`. -/
def LEVEL_PRIORITY : ModelLevel → Int
  | .fast => 1
  | .low => 2
  | .medium => 3
  | .high => 4
  | .ultra => 5

/-! ## Model router (`ModelRouter`, `src/unnamed/part_000`) -/

/-- The slice of `ModelConfig` that selection uses. -/
structure ModelConfig where
  id : String
  level : ModelLevel
  vision : Bool
  tool : Bool
deriving DecidableEq, Repr

/-- A candidate as assembled by `ModelRouter.buildCandidates`. -/
structure Candidate where
  provider : String
  config : ModelConfig
  diff : Int
  priority : Int
deriving DecidableEq, Repr

/-- `ModelRouter.buildCandidates`: flatten the provider map (insertion
order preserved), apply the vision/tool filters, record
`diff = priority(level) - priority(target)`. -/
def buildCandidates (models : List (String × List ModelConfig))
    (visionOnly : Bool) (targetPriority : Int) (requireTool : Bool) : List Candidate :=
  models.flatMap fun (provider, configs) =>
    (configs.filter fun config =>
      (!visionOnly || config.vision) && (!requireTool || config.tool)).map fun config =>
        { provider := provider, config := config,
          diff := LEVEL_PRIORITY config.level - targetPriority,
          priority := LEVEL_PRIORITY config.level }

/-- `ModelRouter.filterByMode`: in `max` mode keep the `diff ≥ 0`
candidates, else the single globally highest; otherwise keep the `diff ≤ 0`
candidates, else the single globally lowest. -/
def filterByMode (maxMode : Bool) (candidates : List Candidate) : List Candidate :=
  if maxMode then
    let filtered := candidates.filter fun c => c.diff ≥ 0
    if filtered.length > 0 then filtered
    else (candidates.mergeSort fun a b => b.priority ≤ a.priority).take 1
  else
    let filtered := candidates.filter fun c => c.diff ≤ 0
    if filtered.length > 0 then filtered
    else (candidates.mergeSort fun a b => a.priority ≤ b.priority).take 1

/-- `ModelRouter.selectNearestModel`: among the mode-filtered candidates,
pick the first one of minimal `|diff|` (stable sort then index 0). -/
def selectNearestModel (maxMode : Bool) (models : List (String × List ModelConfig))
    (targetLevel : ModelLevel) (visionOnly : Bool) (requireTool : Bool) : Option Candidate :=
  let targetPriority := LEVEL_PRIORITY targetLevel
  let candidates := buildCandidates models visionOnly targetPriority requireTool
  if candidates.length = 0 then none
  else
    let filtered := filterByMode maxMode candidates
    (filtered.mergeSort fun a b => a.diff.natAbs ≤ b.diff.natAbs).head?

/-! ### C3: complexity bands -/

/-- The band map exactly as the spec words it: non-overlapping bands
`fast=[0,20) low=[20,40) medium=[40,60) high=[60,80) ultra=[80,100]`
(for scores clamped to `[0,100]`). -/
def specBandLevel (s : ℚ) : ModelLevel :=
  if s < 20 then .fast
  else if s < 40 then .low
  else if s < 60 then .medium
  else if s < 80 then .high
  else .ultra

theorem complexityToLevel_eq_specBandLevel (s : ℚ) (h0 : 0 ≤ s) :
    complexityToLevel s = specBandLevel s := by
  rcases lt_or_le s 20 with h20 | h20
  · simp [complexityToLevel, complexityToLevel.go, COMPLEXITY_THRESHOLDS, specBandLevel,
      h0, h20]
  rcases lt_or_le s 40 with h40 | h40
  · simp [complexityToLevel, complexityToLevel.go, COMPLEXITY_THRESHOLDS, specBandLevel,
      h20, h40, (by linarith : ¬ s < 20)]
  rcases lt_or_le s 60 with h60 | h60
  · simp [complexityToLevel, complexityToLevel.go, COMPLEXITY_THRESHOLDS, specBandLevel,
      h40, h60, (by linarith : ¬ s < 20), (by linarith : ¬ s < 40)]
  rcases lt_or_le s 80 with h80 | h80
  · simp [complexityToLevel, complexityToLevel.go, COMPLEXITY_THRESHOLDS, specBandLevel,
      h60, h80, (by linarith : ¬ s < 20), (by linarith : ¬ s < 40), (by linarith : ¬ s < 60)]
  rcases lt_or_le s 100 with h100 | h100
  · simp [complexityToLevel, complexityToLevel.go, COMPLEXITY_THRESHOLDS, specBandLevel,
      h80, h100, (by linarith : ¬ s < 20), (by linarith : ¬ s < 40), (by linarith : ¬ s < 60),
      (by linarith : ¬ s < 80)]
  · simp [complexityToLevel, complexityToLevel.go, COMPLEXITY_THRESHOLDS, specBandLevel,
      h80, (by linarith : ¬ s < 20), (by linarith : ¬ s < 40), (by linarith : ¬ s < 60),
      (by linarith : ¬ s < 80), (by linarith : ¬ s < 100)]

/-- C3: `complexityToLevel` maps every score in `[0,100]` through the
non-overlapping bands `fast=[0,20) low=[20,40) medium=[40,60) high=[60,80)
ultra=[80,100]`, and takes the stated values at the listed boundary points. -/
theorem C3_complexityToLevel_bands :
    (∀ s : ℚ, 0 ≤ s → s ≤ 100 → complexityToLevel s = specBandLevel s) ∧
    complexityToLevel 19 = .fast ∧ complexityToLevel 20 = .low ∧
    complexityToLevel 59 = .medium ∧ complexityToLevel 60 = .high ∧
    complexityToLevel 79 = .high ∧ complexityToLevel 80 = .ultra ∧
    complexityToLevel 100 = .ultra := by
  refine ⟨fun s h0 _ => complexityToLevel_eq_specBandLevel s h0, ?_, ?_, ?_, ?_, ?_, ?_, ?_⟩ <;>
    decide

/-- Witness: the band equation applies at the concrete score 50. -/
theorem C3_complexityToLevel_bands_witness :
    complexityToLevel 50 = specBandLevel 50 :=
  C3_complexityToLevel_bands.1 50 (by norm_num) (by norm_num)

/-! ### C4: nearest-level fallback -/

theorem mergeSort_ne_nil {α : Type} {le : α → α → Bool} {l : List α} (h : l ≠ []) :
    l.mergeSort le ≠ [] := by
  intro hnil
  have hlen := (List.mergeSort_perm l le).length_eq
  rw [hnil] at hlen
  exact h (List.eq_nil_of_length_eq_zero (by simpa using hlen.symm))

theorem mergeSort_head_min {α : Type} {le : α → α → Bool}
    (htrans : ∀ a b c, le a b → le b c → le a c)
    (htotal : ∀ a b, le a b || le b a)
    {l : List α} {z : α} {t : List α} (hs : l.mergeSort le = z :: t) :
    z ∈ l ∧ ∀ y ∈ l, le z y := by
  have hperm := List.mergeSort_perm l le
  have hsorted := List.sorted_mergeSort htrans htotal l
  rw [hs] at hperm hsorted
  refine ⟨hperm.subset (List.mem_cons_self _ _), fun y hy => ?_⟩
  have hy' : y ∈ z :: t := (hperm.mem_iff).mpr hy
  rcases List.mem_cons.mp hy' with h | h
  · rw [h]
    have := htotal z z
    simpa using this
  · exact (List.pairwise_cons.mp hsorted).1 y h

theorem candidate_diff_eq {models : List (String × List ModelConfig)}
    {visionOnly requireTool : Bool} {tp : Int} {c : Candidate}
    (hc : c ∈ buildCandidates models visionOnly tp requireTool) :
    c.diff = c.priority - tp := by
  simp only [buildCandidates, List.mem_flatMap, List.mem_map, List.mem_filter] at hc
  obtain ⟨⟨provider, configs⟩, _, config, _, rfl⟩ := hc
  rfl

theorem selectNearestModel_eq (maxMode : Bool) (models : List (String × List ModelConfig))
    (targetLevel : ModelLevel) (visionOnly requireTool : Bool)
    (h : buildCandidates models visionOnly (LEVEL_PRIORITY targetLevel) requireTool ≠ []) :
    selectNearestModel maxMode models targetLevel visionOnly requireTool =
      ((filterByMode maxMode
          (buildCandidates models visionOnly (LEVEL_PRIORITY targetLevel) requireTool)).mergeSort
        (fun a b => decide (a.diff.natAbs ≤ b.diff.natAbs))).head? := by
  simp only [selectNearestModel]
  rw [if_neg (fun hlen => h (List.eq_nil_of_length_eq_zero hlen))]

theorem filterByMode_max_fallback {cands : List Candidate} {z : Candidate} {t : List Candidate}
    (hfilter : cands.filter (fun c => decide (c.diff ≥ 0)) = [])
    (hz : cands.mergeSort (fun a b => decide (b.priority ≤ a.priority)) = z :: t) :
    filterByMode true cands = [z] := by
  simp only [filterByMode, if_pos rfl]
  rw [hfilter, hz]
  simp

theorem filterByMode_min_keep {cands : List Candidate}
    (h : cands.filter (fun c => decide (c.diff ≤ 0)) ≠ []) :
    filterByMode false cands = cands.filter (fun c => decide (c.diff ≤ 0)) := by
  simp only [filterByMode]
  rw [if_neg (by simp), if_pos (List.length_pos.mpr h)]

theorem filterByMode_min_fallback {cands : List Candidate} {z : Candidate} {t : List Candidate}
    (hfilter : cands.filter (fun c => decide (c.diff ≤ 0)) = [])
    (hz : cands.mergeSort (fun a b => decide (a.priority ≤ b.priority)) = z :: t) :
    filterByMode false cands = [z] := by
  simp only [filterByMode]
  rw [if_neg (by simp), hfilter, hz]
  simp

/-- C4: when no model sits at the routing target level — (a) in `max` mode
with no candidate at or above the target, the globally highest-priority
candidate is returned; (b) in non-`max` mode the highest-priority candidate
with level at or below the target is returned; (c) in non-`max` mode with no
candidate at or below the target, the globally lowest-priority candidate is
returned. -/
theorem C4_selectNearestModel_fallback
    (models : List (String × List ModelConfig)) (targetLevel : ModelLevel)
    (visionOnly requireTool : Bool) :
    (buildCandidates models visionOnly (LEVEL_PRIORITY targetLevel) requireTool ≠ [] →
      (∀ c ∈ buildCandidates models visionOnly (LEVEL_PRIORITY targetLevel) requireTool,
        c.priority < LEVEL_PRIORITY targetLevel) →
      ∃ r, selectNearestModel true models targetLevel visionOnly requireTool = some r ∧
        r ∈ buildCandidates models visionOnly (LEVEL_PRIORITY targetLevel) requireTool ∧
        ∀ c ∈ buildCandidates models visionOnly (LEVEL_PRIORITY targetLevel) requireTool,
          c.priority ≤ r.priority) ∧
    ((∃ c ∈ buildCandidates models visionOnly (LEVEL_PRIORITY targetLevel) requireTool,
        c.priority ≤ LEVEL_PRIORITY targetLevel) →
      ∃ r, selectNearestModel false models targetLevel visionOnly requireTool = some r ∧
        r ∈ buildCandidates models visionOnly (LEVEL_PRIORITY targetLevel) requireTool ∧
        r.priority ≤ LEVEL_PRIORITY targetLevel ∧
        ∀ c ∈ buildCandidates models visionOnly (LEVEL_PRIORITY targetLevel) requireTool,
          c.priority ≤ LEVEL_PRIORITY targetLevel → c.priority ≤ r.priority) ∧
    (buildCandidates models visionOnly (LEVEL_PRIORITY targetLevel) requireTool ≠ [] →
      (∀ c ∈ buildCandidates models visionOnly (LEVEL_PRIORITY targetLevel) requireTool,
        LEVEL_PRIORITY targetLevel < c.priority) →
      ∃ r, selectNearestModel false models targetLevel visionOnly requireTool = some r ∧
        r ∈ buildCandidates models visionOnly (LEVEL_PRIORITY targetLevel) requireTool ∧
        ∀ c ∈ buildCandidates models visionOnly (LEVEL_PRIORITY targetLevel) requireTool,
          r.priority ≤ c.priority) := by
  set tp := LEVEL_PRIORITY targetLevel with htp
  set cands := buildCandidates models visionOnly tp requireTool with hcands
  refine ⟨?_, ?_, ?_⟩
  · -- (a) max mode, everything strictly below target
    intro hne hbelow
    have hfilter : cands.filter (fun c => decide (c.diff ≥ 0)) = [] := by
      rw [List.filter_eq_nil_iff]
      intro c hc
      have hd := candidate_diff_eq (hcands ▸ hc)
      have := hbelow c hc
      simp only [decide_eq_true_eq, ge_iff_le, not_le]
      omega
    have hsne : cands.mergeSort (fun a b => decide (b.priority ≤ a.priority)) ≠ [] :=
      mergeSort_ne_nil hne
    obtain ⟨z, t, hz⟩ := List.exists_cons_of_ne_nil hsne
    have hzmin := mergeSort_head_min
      (by intro a b c h1 h2; simp only [decide_eq_true_eq] at *; omega)
      (by intro a b; simp only [Bool.or_eq_true, decide_eq_true_eq]; omega) hz
    refine ⟨z, ?_, hzmin.1, fun c hc => by simpa using hzmin.2 c hc⟩
    rw [selectNearestModel_eq true models targetLevel visionOnly requireTool hne,
      filterByMode_max_fallback hfilter hz, List.mergeSort_singleton, List.head?_cons]
  · -- (b) non-max mode, some candidate at or below target
    rintro ⟨c0, hc0, hc0le⟩
    have hc0diff := candidate_diff_eq (hcands ▸ hc0)
    have hc0f : c0 ∈ cands.filter (fun c => decide (c.diff ≤ 0)) :=
      List.mem_filter.mpr ⟨hc0, by simp only [decide_eq_true_eq]; omega⟩
    have hflne : cands.filter (fun c => decide (c.diff ≤ 0)) ≠ [] :=
      List.ne_nil_of_mem hc0f
    have hsne : (cands.filter (fun c => decide (c.diff ≤ 0))).mergeSort
        (fun a b => decide (a.diff.natAbs ≤ b.diff.natAbs)) ≠ [] :=
      mergeSort_ne_nil hflne
    obtain ⟨z, t, hz⟩ := List.exists_cons_of_ne_nil hsne
    have hzmin := mergeSort_head_min
      (by intro a b c h1 h2; simp only [decide_eq_true_eq] at *; omega)
      (by intro a b; simp only [Bool.or_eq_true, decide_eq_true_eq]; omega) hz
    have hzmem : z ∈ cands := (List.mem_filter.mp hzmin.1).1
    have hzle : z.diff ≤ 0 := by
      have := (List.mem_filter.mp hzmin.1).2
      simpa using this
    have hzdiff := candidate_diff_eq (hcands ▸ hzmem)
    refine ⟨z, ?_, hzmem, by omega, fun c hc hcle => ?_⟩
    · rw [selectNearestModel_eq false models targetLevel visionOnly requireTool
        (List.ne_nil_of_mem hc0), filterByMode_min_keep hflne, hz, List.head?_cons]
    · have hcdiff := candidate_diff_eq (hcands ▸ hc)
      have hcf : c ∈ cands.filter (fun c => decide (c.diff ≤ 0)) :=
        List.mem_filter.mpr ⟨hc, by simp only [decide_eq_true_eq]; omega⟩
      have := hzmin.2 c hcf
      simp only [decide_eq_true_eq] at this
      omega
  · -- (c) non-max mode, everything strictly above target
    intro hne habove
    have hfilter : cands.filter (fun c => decide (c.diff ≤ 0)) = [] := by
      rw [List.filter_eq_nil_iff]
      intro c hc
      have hd := candidate_diff_eq (hcands ▸ hc)
      have := habove c hc
      simp only [decide_eq_true_eq, not_le]
      omega
    have hsne : cands.mergeSort (fun a b => decide (a.priority ≤ b.priority)) ≠ [] :=
      mergeSort_ne_nil hne
    obtain ⟨z, t, hz⟩ := List.exists_cons_of_ne_nil hsne
    have hzmin := mergeSort_head_min
      (by intro a b c h1 h2; simp only [decide_eq_true_eq] at *; omega)
      (by intro a b; simp only [Bool.or_eq_true, decide_eq_true_eq]; omega) hz
    refine ⟨z, ?_, hzmin.1, fun c hc => by simpa using hzmin.2 c hc⟩
    rw [selectNearestModel_eq false models targetLevel visionOnly requireTool hne,
      filterByMode_min_fallback hfilter hz, List.mergeSort_singleton, List.head?_cons]

/-- Witness: the fallback policy applied to a concrete two-provider pool
with only `fast` and `low` models and target `ultra`. -/
theorem C4_selectNearestModel_fallback_witness :
    ∃ r, selectNearestModel true
        [("a", [⟨"m1", .fast, false, true⟩]), ("b", [⟨"m2", .low, false, true⟩])]
        .ultra false false = some r ∧
      r ∈ buildCandidates [("a", [⟨"m1", .fast, false, true⟩]), ("b", [⟨"m2", .low, false, true⟩])]
        false (LEVEL_PRIORITY .ultra) false ∧
      ∀ c ∈ buildCandidates [("a", [⟨"m1", .fast, false, true⟩]), ("b", [⟨"m2", .low, false, true⟩])]
        false (LEVEL_PRIORITY .ultra) false, c.priority ≤ r.priority :=
  (C4_selectNearestModel_fallback
    [("a", [⟨"m1", .fast, false, true⟩]), ("b", [⟨"m2", .low, false, true⟩])]
    .ultra false false).1 (by decide) (by decide)

/-! ## Vector-column name encoding (`MemoryStore`, `src/unnamed/part_004`) -/

/-- JS `String.prototype.split(sep)` for a one-character separator. -/
def splitOnChar (sep : Char) : List Char → List (List Char)
  | [] => [[]]
  | c :: cs =>
    match splitOnChar sep cs with
    | [] => [[]]
    | p :: ps => if c = sep then [] :: p :: ps else (c :: p) :: ps

/-- JS `String.prototype.replace(/pat/g, rep)` for a one-character pattern. -/
def replaceChar (pat : Char) (rep : List Char) (l : List Char) : List Char :=
  l.flatMap fun c => if c = pat then rep else [c]

/-- The four sequential escapes in `MemoryStore.modelIdToVectorColumn`:
`/ → _s_`, `: → _c_`, `. → _d_`, `- → _h_`. -/
def escapeModel (m : List Char) : List Char :=
  replaceChar '-' ['_', 'h', '_']
    (replaceChar '.' ['_', 'd', '_']
      (replaceChar ':' ['_', 'c', '_']
        (replaceChar '/' ['_', 's', '_'] m)))

/-- JS `Array.prototype.join(sep)`. -/
def joinWith (sep : List Char) : List (List Char) → List Char
  | [] => []
  | [p] => p
  | p :: q :: ps => p ++ sep ++ joinWith sep (q :: ps)

/-- `MemoryStore.modelIdToVectorColumn`: split off the provider, re-join the
model name (it may itself contain `/`), escape, and prefix. A thrown
`Invalid model ID format` error is modelled as `none`. -/
def modelIdToVectorColumn (modelId : List Char) : Option (List Char) :=
  match splitOnChar '/' modelId with
  | [] => none
  | provider :: modelParts =>
    let model := joinWith ['/'] modelParts
    if provider = [] ∨ model = [] then none
    else some ("vector_".toList ++ provider ++ '_' :: escapeModel model)

/-- One part of `MemoryStore.vectorColumnToModelId`'s decode loop. -/
def decodePart (p : List Char) : List Char :=
  if p = ['s'] then ['/']
  else if p = ['c'] then [':']
  else if p = ['d'] then ['.']
  else if p = ['h'] then ['-']
  else p

/-- `MemoryStore.vectorColumnToModelId`: check the `vector_` prefix, split
the remainder on `_`, decode each part after the provider and join. Thrown
errors are modelled as `none`. -/
def vectorColumnToModelId (column : List Char) : Option (List Char) :=
  if "vector_".toList.isPrefixOf column then
    match splitOnChar '_' (column.drop 7) with
    | [] => none
    | [_] => none
    | provider :: rest => some (provider ++ '/' :: (rest.map decodePart).flatten)
  else none

/-- The characters the encoder escapes. -/
def isSpecialChar (c : Char) : Bool := c = '/' || c = ':' || c = '.' || c = '-'

/-- The escape-code letter for a special character. -/
def codeChar (c : Char) : Char :=
  if c = '/' then 's' else if c = ':' then 'c' else if c = '.' then 'd' else 'h'

/-- Per-character escape; `escapeModel` agrees with it character by
character (the replacement text of one pass contains no pattern character
of a later pass). -/
def escChar (c : Char) : List Char :=
  if isSpecialChar c then ['_', codeChar c, '_'] else [c]

/-- A bare escape-code part (`s`, `c`, `d` or `h`), which `decodePart` turns
back into a special character instead of leaving it alone. -/
def isCodePart (p : List Char) : Bool :=
  p = ['s'] || p = ['c'] || p = ['d'] || p = ['h']

theorem length_dropWhile_le {α : Type} (p : α → Bool) (l : List α) :
    (l.dropWhile p).length ≤ l.length := by
  induction l with
  | nil => simp [List.dropWhile]
  | cons a l ih =>
    simp only [List.dropWhile]
    cases p a <;> simp <;> omega

/-- No maximal special-character-free segment of the model name is a bare
escape code. Together with the absence of `_` this characterises the model
names on which the encoding round-trips. -/
def goodAtoms (m : List Char) : Bool :=
  if h : (m.dropWhile fun c => !isSpecialChar c) = [] then
    !(isCodePart (m.takeWhile fun c => !isSpecialChar c))
  else
    !(isCodePart (m.takeWhile fun c => !isSpecialChar c)) &&
      goodAtoms ((m.dropWhile fun c => !isSpecialChar c).tail)
termination_by m.length
decreasing_by
  have h1 := length_dropWhile_le (fun c => !isSpecialChar c) m
  have h2 : (m.dropWhile fun c => !isSpecialChar c).length ≠ 0 :=
    fun hz => h (List.eq_nil_of_length_eq_zero hz)
  rw [List.length_tail]
  omega

theorem splitOnChar_ne_nil (sep : Char) (l : List Char) : splitOnChar sep l ≠ [] := by
  induction l with
  | nil => simp [splitOnChar]
  | cons c cs ih =>
    simp only [splitOnChar]
    rcases hs : splitOnChar sep cs with _ | ⟨p, ps⟩
    · exact absurd hs ih
    · by_cases hc : c = sep <;> simp [hc]

theorem splitOnChar_sep_cons (sep : Char) (b : List Char) :
    splitOnChar sep (sep :: b) = [] :: splitOnChar sep b := by
  simp only [splitOnChar]
  cases h : splitOnChar sep b with
  | nil => exact absurd h (splitOnChar_ne_nil sep b)
  | cons p ps => simp

/-- Prepend a character to the first part of a split. -/
def consHead (c : Char) : List (List Char) → List (List Char)
  | [] => [[c]]
  | p :: ps => (c :: p) :: ps

theorem splitOnChar_cons_of_ne {sep c : Char} (b : List Char) (h : c ≠ sep) :
    splitOnChar sep (c :: b) = consHead c (splitOnChar sep b) := by
  simp only [splitOnChar]
  cases hb : splitOnChar sep b with
  | nil => exact absurd hb (splitOnChar_ne_nil sep b)
  | cons p ps => simp [consHead, h]

theorem splitOnChar_of_not_mem {sep : Char} {a : List Char} (h : sep ∉ a) :
    splitOnChar sep a = [a] := by
  induction a with
  | nil => rfl
  | cons c a' ih =>
    have hc : c ≠ sep := fun hc => h (hc ▸ List.mem_cons_self c a')
    rw [splitOnChar_cons_of_ne a' hc, ih (fun hm => h (List.mem_cons_of_mem c hm))]
    rfl

theorem splitOnChar_append_sep {sep : Char} {a : List Char} (b : List Char) (h : sep ∉ a) :
    splitOnChar sep (a ++ sep :: b) = a :: splitOnChar sep b := by
  induction a with
  | nil => simpa using splitOnChar_sep_cons sep b
  | cons c a' ih =>
    have hc : c ≠ sep := fun hc => h (hc ▸ List.mem_cons_self c a')
    rw [List.cons_append, splitOnChar_cons_of_ne _ hc,
      ih (fun hm => h (List.mem_cons_of_mem c hm))]
    rfl

theorem joinWith_consHead (sep : List Char) (c : Char) {L : List (List Char)} (h : L ≠ []) :
    joinWith sep (consHead c L) = c :: joinWith sep L := by
  match L with
  | [] => exact absurd rfl h
  | [p] => rfl
  | p :: q :: ps => rfl

theorem joinWith_splitOnChar (sep : Char) (l : List Char) :
    joinWith [sep] (splitOnChar sep l) = l := by
  induction l with
  | nil => rfl
  | cons c cs ih =>
    by_cases hc : c = sep
    · subst hc
      rw [splitOnChar_sep_cons]
      cases h : splitOnChar c cs with
      | nil => exact absurd h (splitOnChar_ne_nil c cs)
      | cons p ps =>
        rw [h] at ih
        simpa [joinWith] using ih
    · rw [splitOnChar_cons_of_ne cs hc,
        joinWith_consHead [sep] c (splitOnChar_ne_nil sep cs), ih]

theorem escapeModel_append (x y : List Char) :
    escapeModel (x ++ y) = escapeModel x ++ escapeModel y := by
  simp only [escapeModel, replaceChar, List.flatMap_append]

theorem escapeModel_cons (c : Char) (cs : List Char) :
    escapeModel (c :: cs) = escChar c ++ escapeModel cs := by
  have h := escapeModel_append [c] cs
  rw [List.singleton_append] at h
  rw [h]
  congr 1
  by_cases h1 : c = '/'
  · subst h1; rfl
  by_cases h2 : c = ':'
  · subst h2; rfl
  by_cases h3 : c = '.'
  · subst h3; rfl
  by_cases h4 : c = '-'
  · subst h4; rfl
  simp [escapeModel, replaceChar, escChar, isSpecialChar, h1, h2, h3, h4]

theorem escapeModel_of_no_special {a : List Char}
    (h : ∀ c ∈ a, isSpecialChar c = false) : escapeModel a = a := by
  induction a with
  | nil => rfl
  | cons c a' ih =>
    rw [escapeModel_cons, escChar, if_neg (by simp [h c (List.mem_cons_self c a')]),
      ih (fun x hx => h x (List.mem_cons_of_mem c hx))]
    rfl

theorem decodePart_of_not_code {p : List Char} (h : isCodePart p = false) :
    decodePart p = p := by
  simp only [isCodePart, Bool.or_eq_false_iff, decide_eq_false_iff_not] at h
  simp [decodePart, h.1.1.1, h.1.1.2, h.1.2, h.2]

theorem decodePart_codeChar {s : Char} (h : isSpecialChar s = true) :
    decodePart [codeChar s] = [s] := by
  simp only [isSpecialChar, Bool.or_eq_true, decide_eq_true_eq] at h
  rcases h with ((h | h) | h) | h <;> subst h <;> rfl

theorem codeChar_ne_underscore (s : Char) : codeChar s ≠ '_' := by
  unfold codeChar
  split
  · decide
  split
  · decide
  split <;> decide

theorem underscore_not_special : isSpecialChar '_' = false := by decide

theorem dropWhile_head_false {α : Type} (p : α → Bool) (l : List α) {s : α} {r : List α}
    (h : l.dropWhile p = s :: r) : p s = false := by
  induction l with
  | nil => simp [List.dropWhile] at h
  | cons a l ih =>
    simp only [List.dropWhile] at h
    cases hp : p a with
    | true => rw [hp] at h; exact ih h
    | false =>
      rw [hp] at h
      cases h
      exact hp

/-- Core decoding lemma: on `_`-free model names whose atoms are not bare
escape codes, splitting the escaped name on `_` and decoding each part
recovers the name. -/
theorem decode_escape_aux :
    ∀ n (m : List Char), m.length ≤ n → '_' ∉ m → goodAtoms m = true →
      ((splitOnChar '_' (escapeModel m)).map decodePart).flatten = m := by
  intro n
  induction n with
  | zero =>
    intro m hlen _ _
    have hm : m = [] := List.eq_nil_of_length_eq_zero (Nat.le_zero.mp hlen)
    subst hm
    rfl
  | succ n ih =>
    intro m hlen hmu hga
    have hdec := (List.takeWhile_append_dropWhile (p := fun c => !isSpecialChar c) (l := m)).symm
    cases hrest : m.dropWhile (fun c => !isSpecialChar c) with
    | nil =>
      have hall : ∀ c ∈ m, isSpecialChar c = false := by
        intro c hc
        have := List.dropWhile_eq_nil_iff.mp hrest c hc
        simpa using this
      have htake : m.takeWhile (fun c => !isSpecialChar c) = m := by
        rw [hrest] at hdec
        simpa using hdec.symm
      have hcode : isCodePart m = false := by
        rw [goodAtoms, dif_pos hrest, htake] at hga
        simpa using hga
      rw [escapeModel_of_no_special hall, splitOnChar_of_not_mem hmu]
      simp [decodePart_of_not_code hcode]
    | cons s r =>
      have hs : isSpecialChar s = true := by
        have := dropWhile_head_false (fun c => !isSpecialChar c) m hrest
        simpa using this
      rw [hrest] at hdec
      have haspec : ∀ c ∈ m.takeWhile (fun c => !isSpecialChar c), isSpecialChar c = false := by
        intro c hc
        have := List.mem_takeWhile_imp hc
        simpa using this
      have hau : '_' ∉ m.takeWhile (fun c => !isSpecialChar c) :=
        fun hx => hmu ((List.takeWhile_prefix _).subset hx)
      have hru : '_' ∉ r := fun hx => hmu (by
        rw [hdec]
        exact List.mem_append_right _ (List.mem_cons_of_mem s hx))
      have hacode : isCodePart (m.takeWhile fun c => !isSpecialChar c) = false := by
        rw [goodAtoms, dif_neg (by rw [hrest]; simp)] at hga
        simp only [Bool.and_eq_true, Bool.not_eq_true'] at hga
        exact hga.1
      have hgr : goodAtoms r = true := by
        rw [goodAtoms, dif_neg (by rw [hrest]; simp)] at hga
        simp only [Bool.and_eq_true, Bool.not_eq_true'] at hga
        have := hga.2
        rwa [hrest] at this
      have hlr : r.length ≤ n := by
        have hml : m.length = (m.takeWhile fun c => !isSpecialChar c).length + 1 + r.length := by
          conv_lhs => rw [hdec]
          simp [List.length_append]
          omega
        omega
      conv_lhs => rw [hdec]
      rw [escapeModel_append, escapeModel_cons, escapeModel_of_no_special haspec,
        show escChar s = ['_', codeChar s, '_'] from by rw [escChar, if_pos hs],
        show (m.takeWhile fun c => !isSpecialChar c) ++ (['_', codeChar s, '_'] ++ escapeModel r)
            = (m.takeWhile fun c => !isSpecialChar c) ++
              '_' :: codeChar s :: '_' :: escapeModel r from by simp,
        splitOnChar_append_sep _ hau,
        splitOnChar_cons_of_ne _ (codeChar_ne_underscore s),
        splitOnChar_sep_cons,
        show consHead (codeChar s) ([] :: splitOnChar '_' (escapeModel r))
            = [codeChar s] :: splitOnChar '_' (escapeModel r) from rfl]
      simp only [List.map_cons, List.flatten_cons]
      rw [decodePart_of_not_code hacode, decodePart_codeChar hs, ih r hlr hru hgr]
      simp
      exact hdec.symm

/-- C2 (amended): `vectorColumnToModelId ∘ modelIdToVectorColumn` is the
identity on model ids `<provider>/<model>` whose provider part contains no
`_` or `/`, and whose model part contains no `_` and has no maximal
special-character-free segment equal to a bare escape code letter
(`s`, `c`, `d`, `h`). -/
theorem C2_vectorColumn_roundtrip (provider model : List Char)
    (hp : provider ≠ []) (hpu : '_' ∉ provider) (hps : '/' ∉ provider)
    (hm : model ≠ []) (hmu : '_' ∉ model) (hga : goodAtoms model = true) :
    ∃ col, modelIdToVectorColumn (provider ++ '/' :: model) = some col ∧
      vectorColumnToModelId col = some (provider ++ '/' :: model) := by
  have hsplit : splitOnChar '/' (provider ++ '/' :: model)
      = provider :: splitOnChar '/' model := splitOnChar_append_sep model hps
  have hjoin : joinWith ['/'] (splitOnChar '/' model) = model := joinWith_splitOnChar '/' model
  refine ⟨"vector_".toList ++ provider ++ '_' :: escapeModel model, ?_, ?_⟩
  · simp only [modelIdToVectorColumn, hsplit, hjoin]
    rw [if_neg (fun h => h.elim hp hm)]
  · have hpre : "vector_".toList.isPrefixOf
        ("vector_".toList ++ provider ++ '_' :: escapeModel model) = true := by
      rw [List.isPrefixOf_iff_prefix]
      rw [List.append_assoc]
      exact List.prefix_append _ _
    have hdrop : ("vector_".toList ++ provider ++ '_' :: escapeModel model).drop 7
        = provider ++ '_' :: escapeModel model := by
      rw [List.append_assoc, show (7 : Nat) = ("vector_".toList).length from rfl,
        List.drop_left]
    have hsplit2 : splitOnChar '_' (provider ++ '_' :: escapeModel model)
        = provider :: splitOnChar '_' (escapeModel model) :=
      splitOnChar_append_sep (escapeModel model) hpu
    obtain ⟨p0, ps, hP⟩ :=
      List.exists_cons_of_ne_nil (splitOnChar_ne_nil '_' (escapeModel model))
    have hflat : ((p0 :: ps).map decodePart).flatten = model := by
      rw [← hP]
      exact decode_escape_aux model.length model le_rfl hmu hga
    simp only [vectorColumnToModelId, hpre, if_true, hdrop, hsplit2, hP, hflat]

/-- C2 counterexample: the claim fails as stated. For the model id `p/a_b`
(of the form `<provider>/<model>`), encoding yields the column
`vector_p_a_b`, which decodes to `p/ab`, not `p/a_b`: the `_` in the model
name is lost. -/
theorem C2_vectorColumn_roundtrip_cex :
    modelIdToVectorColumn "p/a_b".toList = some "vector_p_a_b".toList ∧
    vectorColumnToModelId "vector_p_a_b".toList = some "p/ab".toList ∧
    "p/ab".toList ≠ "p/a_b".toList := by
  refine ⟨?_, ?_, ?_⟩ <;> decide

/-- Witness: the amended round-trip applies to the concrete model id
`ollama/qwen3-embedding:0.6b`. -/
theorem C2_vectorColumn_roundtrip_witness :
    ∃ col, modelIdToVectorColumn ("ollama".toList ++ '/' :: "qwen3-embedding:0.6b".toList)
        = some col ∧
      vectorColumnToModelId col
        = some ("ollama".toList ++ '/' :: "qwen3-embedding:0.6b".toList) :=
  C2_vectorColumn_roundtrip "ollama".toList "qwen3-embedding:0.6b".toList
    (by decide) (by decide) (by decide) (by decide) (by decide)
    (by simp [goodAtoms, isSpecialChar, isCodePart])

/-! ## Hybrid search merge (`MemoryStore.search` / `hybridSearch`,
`src/unnamed/part_004`) -/

/-- The slice of a memory entry that search merging uses. -/
structure MemoryEntry where
  id : String
  content : String
  createdAt : Nat
deriving DecidableEq, Repr

/-- First merge loop of `MemoryStore.hybridSearch`: add every vector result
whose id is unseen, tracking the `seen` set. -/
def mergeVectorResults (seen : List String) : List MemoryEntry → List String × List MemoryEntry
  | [] => (seen, [])
  | e :: es =>
    if e.id ∈ seen then mergeVectorResults seen es
    else
      let r := mergeVectorResults (e.id :: seen) es
      (r.1, e :: r.2)

/-- Second merge loop of `MemoryStore.hybridSearch`: add fulltext results
whose id is unseen while the merged length stays below `limit`. -/
def mergeFulltextResults (seen : List String) (len limit : Nat) :
    List MemoryEntry → List MemoryEntry
  | [] => []
  | e :: es =>
    if e.id ∉ seen ∧ len < limit then
      e :: mergeFulltextResults (e.id :: seen) (len + 1) limit es
    else mergeFulltextResults seen len limit es

/-- `MemoryStore.hybridSearch` merging, given the two sub-query results:
both loops followed by `merged.slice(0, limit)`. -/
def hybridMerge (vectorResults fulltextResults : List MemoryEntry) (limit : Nat) :
    List MemoryEntry :=
  let m1 := mergeVectorResults [] vectorResults
  (m1.2 ++ mergeFulltextResults m1.1 m1.2.length limit fulltextResults).take limit

/-- `MemoryStore.search`'s effective limit:
`min(options.limit ?? defaultSearchLimit, maxSearchLimit)`. -/
def searchEffectiveLimit (optLimit : Option Nat) (defaultSearchLimit maxSearchLimit : Nat) :
    Nat :=
  min (optLimit.getD defaultSearchLimit) maxSearchLimit

/-- `search` in `hybrid` mode, abstracting the two sub-queries as lists. -/
def searchHybrid (vectorResults fulltextResults : List MemoryEntry)
    (optLimit : Option Nat) (defaultSearchLimit maxSearchLimit : Nat) : List MemoryEntry :=
  hybridMerge vectorResults fulltextResults
    (searchEffectiveLimit optLimit defaultSearchLimit maxSearchLimit)

/-- Spec-side de-duplication by id, keeping first occurrences. -/
def specDedupById (seen : List String) : List MemoryEntry → List MemoryEntry
  | [] => []
  | e :: es =>
    if e.id ∈ seen then specDedupById seen es
    else e :: specDedupById (e.id :: seen) es

/-- The ids seen after scanning a list. -/
def seenAfter (seen : List String) : List MemoryEntry → List String
  | [] => seen
  | e :: es => if e.id ∈ seen then seenAfter seen es else seenAfter (e.id :: seen) es

/-- The spec's hybrid result: vector results then fulltext results,
de-duplicated by id, truncated to `limit`. -/
def specHybrid (vectorResults fulltextResults : List MemoryEntry) (limit : Nat) :
    List MemoryEntry :=
  (specDedupById [] (vectorResults ++ fulltextResults)).take limit

theorem mergeVectorResults_eq (l : List MemoryEntry) :
    ∀ seen, mergeVectorResults seen l = (seenAfter seen l, specDedupById seen l) := by
  induction l with
  | nil => intro seen; rfl
  | cons e es ih =>
    intro seen
    simp only [mergeVectorResults, seenAfter, specDedupById]
    by_cases h : e.id ∈ seen <;> simp [h, ih]

theorem specDedupById_append (a b : List MemoryEntry) :
    ∀ seen, specDedupById seen (a ++ b)
      = specDedupById seen a ++ specDedupById (seenAfter seen a) b := by
  induction a with
  | nil => intro seen; rfl
  | cons e es ih =>
    intro seen
    simp only [List.cons_append, specDedupById, seenAfter]
    by_cases h : e.id ∈ seen <;> simp [h, ih]

theorem mergeFulltextResults_eq (f : List MemoryEntry) :
    ∀ seen len limit, mergeFulltextResults seen len limit f
      = (specDedupById seen f).take (limit - len) := by
  induction f with
  | nil => intro seen len limit; simp [mergeFulltextResults, specDedupById]
  | cons e es ih =>
    intro seen len limit
    by_cases hmem : e.id ∈ seen
    · simp [mergeFulltextResults, specDedupById, hmem, ih]
    by_cases hlen : len < limit
    · simp only [mergeFulltextResults, specDedupById]
      rw [if_pos ⟨hmem, hlen⟩, if_neg hmem, ih]
      have heq : limit - len = (limit - (len + 1)) + 1 := by omega
      rw [heq, List.take_succ_cons]
    · have hz : limit - len = 0 := by omega
      simp [mergeFulltextResults, specDedupById, hmem, hlen, ih, hz]

theorem hybridMerge_eq_specHybrid (v f : List MemoryEntry) (limit : Nat) :
    hybridMerge v f limit = specHybrid v f limit := by
  simp only [hybridMerge, specHybrid, mergeVectorResults_eq, mergeFulltextResults_eq,
    specDedupById_append, List.take_append_eq_append_take, List.take_take]
  simp [min_self]

theorem specDedupById_ids_nodup (l : List MemoryEntry) :
    ∀ seen, ((specDedupById seen l).map (fun e => e.id)).Nodup ∧
      ∀ e ∈ specDedupById seen l, e.id ∉ seen := by
  induction l with
  | nil => intro seen; simp [specDedupById]
  | cons e es ih =>
    intro seen
    simp only [specDedupById]
    by_cases h : e.id ∈ seen
    · simp only [h, if_true]
      exact (ih seen)
    · simp only [h, if_false, List.map_cons, List.nodup_cons, List.mem_map]
      refine ⟨⟨?_, (ih (e.id :: seen)).1⟩, ?_⟩
      · rintro ⟨x, hx, hxid⟩
        exact (ih (e.id :: seen)).2 x hx (hxid ▸ List.mem_cons_self _ _)
      · intro x hx
        rcases List.mem_cons.mp hx with rfl | hx'
        · exact h
        · intro hxs
          exact (ih (e.id :: seen)).2 x hx' (List.mem_cons_of_mem _ hxs)

/-- C5: `search` in hybrid mode first caps the limit at `maxSearchLimit`,
then returns the vector results followed by the fulltext results with
duplicate ids removed, truncated to the effective limit; consequently the
result has pairwise-distinct ids and length at most the effective limit
(which is at most the requested limit). -/
theorem C5_hybridSearch_merge (vectorResults fulltextResults : List MemoryEntry)
    (optLimit : Option Nat) (defaultSearchLimit maxSearchLimit : Nat) :
    searchHybrid vectorResults fulltextResults optLimit defaultSearchLimit maxSearchLimit
      = specHybrid vectorResults fulltextResults
          (min (optLimit.getD defaultSearchLimit) maxSearchLimit) ∧
    ((searchHybrid vectorResults fulltextResults optLimit defaultSearchLimit
        maxSearchLimit).map (fun e => e.id)).Nodup ∧
    (searchHybrid vectorResults fulltextResults optLimit defaultSearchLimit
        maxSearchLimit).length ≤ optLimit.getD defaultSearchLimit ∧
    (searchHybrid vectorResults fulltextResults optLimit defaultSearchLimit
        maxSearchLimit).length ≤ maxSearchLimit := by
  have heq : searchHybrid vectorResults fulltextResults optLimit defaultSearchLimit
      maxSearchLimit = specHybrid vectorResults fulltextResults
        (min (optLimit.getD defaultSearchLimit) maxSearchLimit) :=
    hybridMerge_eq_specHybrid _ _ _
  refine ⟨heq, ?_, ?_, ?_⟩
  · rw [heq]
    simp only [specHybrid, List.map_take]
    exact ((List.take_sublist _ _).nodup
      (specDedupById_ids_nodup (vectorResults ++ fulltextResults) []).1)
  · rw [heq]
    simp only [specHybrid]
    have := List.length_take
      (min (optLimit.getD defaultSearchLimit) maxSearchLimit)
      (specDedupById [] (vectorResults ++ fulltextResults))
    omega
  · rw [heq]
    simp only [specHybrid]
    have := List.length_take
      (min (optLimit.getD defaultSearchLimit) maxSearchLimit)
      (specDedupById [] (vectorResults ++ fulltextResults))
    omega

/-! ## `MemoryStore.updateVector` (`src/unnamed/part_004`) -/

/-- A stored row. Dynamic vector columns are an association list from
column name to vector; `lookup` takes the first binding, so prepending a
binding models the JS object-spread override
`{...normalizedOriginal, [vectorColumn]: vector}`. Vector normalisation
(FixedSizeList to plain array) is the identity on this representation. -/
structure Row where
  id : String
  content : String
  createdAt : Nat
  updatedAt : Nat
  active_embed : Option String
  vectors : List (String × List ℚ)
deriving DecidableEq, Repr

/-- Read a vector column of a row; an absent column reads as empty. -/
def getVec (r : Row) (c : String) : List ℚ := (r.vectors.lookup c).getD []

/-- `MemoryStore.updateVector`: read the first row with the id (throwing
`Record not found` if none, modelled as `.error`), then delete every row
with that id and re-insert the row with the new vector,
`active_embed = modelId` and `updatedAt = Date.now()` (the `now`
parameter). -/
def updateVector (table : List Row) (id vectorColumn : String)
    (vector : List ℚ) (modelId : String) (now : Nat) : Except String (List Row) :=
  match table.find? (fun r => r.id = id) with
  | none => .error ("Record not found: " ++ id)
  | some original =>
    let updated : Row := { original with updatedAt := now, active_embed := some modelId, vectors := (vectorColumn, vector) :: original.vectors }
    .ok ((table.filter fun r => ¬ r.id = id) ++ [updated])

/-- C6: after a successful `updateVector(id, c, v, m)` on an existing
record, the (unique) row with that id has `row[c] = v`,
`active_embed = m` and `updatedAt = now`; provided the clock has advanced
past the row's stored `updatedAt` (millisecond clock, later call), the new
`updatedAt` strictly exceeds the previous one. -/
theorem C6_updateVector_post (table : List Row) (id vectorColumn : String)
    (vector : List ℚ) (modelId : String) (now : Nat) (original : Row)
    (hfind : table.find? (fun r => r.id = id) = some original)
    (hnow : original.updatedAt < now) :
    ∃ t', updateVector table id vectorColumn vector modelId now = .ok t' ∧
      ∃ r ∈ t', r.id = id ∧ getVec r vectorColumn = vector ∧
        r.active_embed = some modelId ∧ r.updatedAt = now ∧
        original.updatedAt < r.updatedAt ∧
        ∀ r' ∈ t', r'.id = id → r' = r := by
  have hid : original.id = id := by
    have := List.find?_some hfind
    simpa using this
  refine ⟨(table.filter fun r => ¬ r.id = id) ++
      [{ original with updatedAt := now, active_embed := some modelId, vectors := (vectorColumn, vector) :: original.vectors }], ?_, ?_⟩
  · simp only [updateVector, hfind]
  · refine ⟨_, List.mem_append_right _ (List.mem_singleton_self _), hid, ?_, rfl, rfl, hnow, ?_⟩
    · simp [getVec, List.lookup]
    · intro r' hr' hr'id
      rcases List.mem_append.mp hr' with hmem | hmem
      · exact absurd hr'id (by simpa using (List.mem_filter.mp hmem).2)
      · simpa using hmem

/-- Witness: `updateVector` applied to a concrete one-row table. -/
theorem C6_updateVector_post_witness :
    ∃ t', updateVector [⟨"a", "hi", 5, 10, none, []⟩] "a" "vector_p_m" [1, 2] "p/m" 11
        = .ok t' ∧
      ∃ r ∈ t', r.id = "a" ∧ getVec r "vector_p_m" = [1, 2] ∧
        r.active_embed = some "p/m" ∧ r.updatedAt = 11 ∧
        (⟨"a", "hi", 5, 10, none, []⟩ : Row).updatedAt < r.updatedAt ∧
        ∀ r' ∈ t', r'.id = "a" → r' = r :=
  C6_updateVector_post [⟨"a", "hi", 5, 10, none, []⟩] "a" "vector_p_m" [1, 2] "p/m" 11
    ⟨"a", "hi", 5, 10, none, []⟩ (by rfl) (by norm_num)

/-! ## Migration engine (`EmbeddingMigration`, `src/unnamed/part_006`) -/

/-- Migration status values. -/
inductive MigStatus where
  | idle | running | paused | completed | error
deriving DecidableEq, Repr

/-- A `failedRecords` element `{id, error, timestamp}`. -/
structure FailedRecord where
  id : String
  error : String
  timestamp : Nat
deriving DecidableEq, Repr

/-- The persisted migration state. -/
structure MigrationState where
  targetModel : String
  status : MigStatus
  totalRecords : Nat
  migratedCount : Nat
  migratedUntil : Option Nat
  batchSize : Nat
  failedRecords : List FailedRecord
  startedAt : Option Nat
  completedAt : Option Nat
deriving DecidableEq, Repr

/-- One record's outcome inside `EmbeddingMigration.processBatch`:
`error = none` when `embed` + `updateVector` succeeded, otherwise the
caught error message. -/
structure BatchOutcome where
  entry : MemoryEntry
  error : Option String
deriving DecidableEq, Repr

/-- The per-record state update of `processBatch`: on success bump
`migratedCount` and assign `migratedUntil := entry.createdAt` (a plain
assignment, not a `max`); on failure append to `failedRecords`. -/
def processRecord (st : MigrationState) (item : BatchOutcome) (now : Nat) : MigrationState :=
  match item.error with
  | none =>
    { st with
      migratedCount := st.migratedCount + 1
      migratedUntil := some item.entry.createdAt }
  | some e =>
    { st with failedRecords := st.failedRecords ++ [⟨item.entry.id, e, now⟩] }

/-- `EmbeddingMigration.processBatch`'s state effect over one batch. -/
def processBatch (st : MigrationState) (batch : List BatchOutcome) (now : Nat) :
    MigrationState :=
  batch.foldl (fun s item => processRecord s item now) st

/-- C1 counterexample: `processBatch` does not keep `migratedUntil`
non-decreasing and does not take a `max`. From `migratedUntil = 100`,
migrating one record with `createdAt = 50` (batches are fetched newest
first, so older records do follow newer ones) drops the cursor to 50,
whereas `max(100, 50) = 100`. -/
theorem C1_processBatch_cex :
    (processBatch ⟨"p/m", .running, 2, 1, some 100, 50, [], none, none⟩
        [⟨⟨"r1", "c", 50⟩, none⟩] 0).migratedUntil = some 50 ∧ (50 : Nat) < 100 := by
  decide

theorem processBatch_migratedCount (batch : List BatchOutcome) (now : Nat) :
    ∀ st : MigrationState, (processBatch st batch now).migratedCount
      = st.migratedCount + (batch.filter fun i => i.error = none).length := by
  induction batch with
  | nil => intro st; simp [processBatch]
  | cons i batch ih =>
    intro st
    simp only [processBatch, List.foldl_cons] at *
    rw [ih]
    cases he : i.error with
    | none => simp [processRecord, he, List.filter_cons]; omega
    | some e => simp [processRecord, he, List.filter_cons]

theorem processBatch_totalRecords (batch : List BatchOutcome) (now : Nat) :
    ∀ st : MigrationState, (processBatch st batch now).totalRecords = st.totalRecords := by
  induction batch with
  | nil => intro st; simp [processBatch]
  | cons i batch ih =>
    intro st
    simp only [processBatch, List.foldl_cons] at *
    rw [ih]
    cases he : i.error with
    | none => simp [processRecord, he]
    | some e => simp [processRecord, he]

theorem processBatch_migratedUntil (batch : List BatchOutcome) (now : Nat) :
    ∀ st : MigrationState, (processBatch st batch now).migratedUntil
      = ((batch.filter fun i => i.error = none).getLast?.elim st.migratedUntil
          (fun i => some i.entry.createdAt)) := by
  induction batch with
  | nil => intro st; simp [processBatch]
  | cons i batch ih =>
    intro st
    simp only [processBatch, List.foldl_cons] at *
    cases he : i.error with
    | none =>
      rw [ih]
      simp only [List.filter_cons, he, decide_eq_true_eq]
      rcases hk : (batch.filter fun i => i.error = none).getLast? with _ | k
      · rw [List.getLast?_eq_none_iff.mp hk]
        simp [processRecord, he]
      · have hne : batch.filter (fun i => i.error = none) ≠ [] := by
          intro h; rw [h] at hk; simp at hk
        obtain ⟨j, l', hjl⟩ := List.exists_cons_of_ne_nil hne
        simp only [if_true]
        rw [hjl, List.getLast?_cons_cons, ← hjl, hk]
        simp
    | some e =>
      rw [ih]
      simp only [List.filter_cons, he]
      simp [processRecord, he]

/-- C1 (amended): over one batch, `processBatch` increases `migratedCount`
by exactly the number of successfully migrated records (so it stays at most
`totalRecords` as long as the total number of successes does not exceed the
record count), leaves `totalRecords` unchanged, and sets `migratedUntil` to
the `createdAt` of the *last* successfully migrated record of the batch
(keeping the old value when none succeeds) — a plain assignment under the
newest-first batch order, not `max(migratedUntil, createdAt)`, so the
cursor can decrease. -/
theorem C1_processBatch_amended (st : MigrationState) (batch : List BatchOutcome) (now : Nat)
    (hcap : st.migratedCount + (batch.filter fun i => i.error = none).length
      ≤ st.totalRecords) :
    (processBatch st batch now).migratedCount
        = st.migratedCount + (batch.filter fun i => i.error = none).length ∧
    (processBatch st batch now).migratedCount ≤ (processBatch st batch now).totalRecords ∧
    (processBatch st batch now).totalRecords = st.totalRecords ∧
    (processBatch st batch now).migratedUntil
        = ((batch.filter fun i => i.error = none).getLast?.elim st.migratedUntil
            (fun i => some i.entry.createdAt)) := by
  refine ⟨processBatch_migratedCount batch now st, ?_,
    processBatch_totalRecords batch now st, processBatch_migratedUntil batch now st⟩
  rw [processBatch_migratedCount batch now st, processBatch_totalRecords batch now st]
  exact hcap

/-- Witness: the amended batch invariant at a concrete state and batch of
one success and one failure. -/
theorem C1_processBatch_amended_witness :
    (processBatch ⟨"p/m", .running, 3, 1, some 40, 50, [], none, none⟩
        [⟨⟨"r2", "c2", 90⟩, none⟩, ⟨⟨"r3", "c3", 80⟩, some "boom"⟩] 7).migratedCount
      = 1 + ([⟨⟨"r2", "c2", 90⟩, none⟩, (⟨⟨"r3", "c3", 80⟩, some "boom"⟩ : BatchOutcome)].filter
          fun i => i.error = none).length ∧
    (processBatch ⟨"p/m", .running, 3, 1, some 40, 50, [], none, none⟩
        [⟨⟨"r2", "c2", 90⟩, none⟩, ⟨⟨"r3", "c3", 80⟩, some "boom"⟩] 7).migratedCount
      ≤ (processBatch ⟨"p/m", .running, 3, 1, some 40, 50, [], none, none⟩
        [⟨⟨"r2", "c2", 90⟩, none⟩, ⟨⟨"r3", "c3", 80⟩, some "boom"⟩] 7).totalRecords ∧
    (processBatch ⟨"p/m", .running, 3, 1, some 40, 50, [], none, none⟩
        [⟨⟨"r2", "c2", 90⟩, none⟩, ⟨⟨"r3", "c3", 80⟩, some "boom"⟩] 7).totalRecords = 3 ∧
    (processBatch ⟨"p/m", .running, 3, 1, some 40, 50, [], none, none⟩
        [⟨⟨"r2", "c2", 90⟩, none⟩, ⟨⟨"r3", "c3", 80⟩, some "boom"⟩] 7).migratedUntil
      = (([⟨⟨"r2", "c2", 90⟩, none⟩, (⟨⟨"r3", "c3", 80⟩, some "boom"⟩ : BatchOutcome)].filter
            fun i => i.error = none).getLast?.elim (some 40)
          (fun i => some i.entry.createdAt)) :=
  C1_processBatch_amended ⟨"p/m", .running, 3, 1, some 40, 50, [], none, none⟩
    [⟨⟨"r2", "c2", 90⟩, none⟩, ⟨⟨"r3", "c3", 80⟩, some "boom"⟩] 7 (by decide)

/-! ## Migration state-file loading (`EmbeddingMigration.loadState`,
`backupCorruptedState`, `getStatus`; `src/unnamed/part_006`) -/

/-- A JSON value, the possible results of `JSON.parse`. -/
inductive JsonVal where
  | str (s : String)
  | num (n : Int)
  | jbool (b : Bool)
  | null
  | arr (elems : List JsonVal)
  | obj (fields : List (String × JsonVal))

/-- `typeof v === 'string' && v.length > 0`. -/
def isNonEmptyStr : Option JsonVal → Bool
  | some (.str s) => s.length ≠ 0
  | _ => false

/-- `validStatuses.includes(s.status)`: value equality against the five
status strings (false on any non-string value). -/
def isValidStatusVal : Option JsonVal → Bool
  | some (.str s) =>
    s = "running" || s = "paused" || s = "completed" || s = "error" || s = "idle"
  | _ => false

/-- `typeof v === 'number' && v >= 0`. -/
def isNonNegNum : Option JsonVal → Bool
  | some (.num n) => 0 ≤ n
  | _ => false

/-- `typeof v === 'number' && v > 0`. -/
def isPosNum : Option JsonVal → Bool
  | some (.num n) => 0 < n
  | _ => false

/-- `Array.isArray(v)`. -/
def isArrVal : Option JsonVal → Bool
  | some (.arr _) => true
  | _ => false

/-- `EmbeddingMigration.validateState`: required fields present and typed.
`true` means valid. A non-object (including `null`, which is falsy, and
arrays/primitives, which fail the field checks) is invalid. -/
def validateState (j : JsonVal) : Bool :=
  match j with
  | .obj fields =>
    (["targetModel", "status", "totalRecords", "migratedCount", "batchSize",
      "failedRecords"].all fun f => (fields.lookup f).isSome) &&
    isNonEmptyStr (fields.lookup "targetModel") &&
    isValidStatusVal (fields.lookup "status") &&
    isNonNegNum (fields.lookup "totalRecords") &&
    isNonNegNum (fields.lookup "migratedCount") &&
    isPosNum (fields.lookup "batchSize") &&
    isArrVal (fields.lookup "failedRecords")
  | _ => false

/-- A file system: path to contents; `lookup` takes the first binding, so
a prepending write overrides. -/
structure FS where
  files : List (String × String)

/-- `readFile`. -/
def fsRead (fs : FS) (p : String) : Option String := fs.files.lookup p

/-- `writeFile`. -/
def fsWrite (fs : FS) (p c : String) : FS := ⟨(p, c) :: fs.files⟩

/-- `EmbeddingMigration.backupCorruptedState`: copy the state file to
`<statePath>.corrupted.<timestamp>`; on a read failure return `none`
(backup failed) and leave the file system unchanged. -/
def backupCorruptedState (fs : FS) (statePath timestamp : String) : FS × Option String :=
  match fsRead fs statePath with
  | none => (fs, none)
  | some content =>
    (fsWrite fs (statePath ++ ".corrupted." ++ timestamp) content,
     some (statePath ++ ".corrupted." ++ timestamp))

/-- `LoadStateResult`. -/
structure LoadStateResult where
  valid : Bool
  state : Option JsonVal
  backedUp : Bool

/-- `EmbeddingMigration.loadState`. `JSON.parse` is the JS runtime's
parser; its outcome on the file's text is the `parse` parameter (`none`
models a parse exception). -/
def loadState (fs : FS) (statePath timestamp : String)
    (parse : String → Option JsonVal) : FS × LoadStateResult :=
  match fsRead fs statePath with
  | none => (fs, ⟨true, none, false⟩)
  | some content =>
    match parse content with
    | none =>
      let b := backupCorruptedState fs statePath timestamp
      (b.1, ⟨false, none, b.2.isSome⟩)
    | some parsed =>
      if validateState parsed then (fs, ⟨true, some parsed, false⟩)
      else
        let b := backupCorruptedState fs statePath timestamp
        (b.1, ⟨false, none, b.2.isSome⟩)

/-- The `status` field of a loaded state object (the JS cast
`parsed as MigrationState` followed by reading `.status`). -/
def statusOfJson (j : JsonVal) : MigStatus :=
  match j with
  | .obj fields =>
    match fields.lookup "status" with
    | some (.str "running") => .running
    | some (.str "paused") => .paused
    | some (.str "completed") => .completed
    | some (.str "error") => .error
    | _ => .idle
  | _ => .idle

/-- `EmbeddingMigration.getStatus` with no state in memory: load the state
file; when the load result is invalid (or there is no state), report
`idle`, otherwise the loaded status. -/
def getStatusAfterLoad (fs : FS) (statePath timestamp : String)
    (parse : String → Option JsonVal) : MigStatus :=
  match (loadState fs statePath timestamp parse).2 with
  | ⟨true, some st, _⟩ => statusOfJson st
  | _ => .idle

/-- C7: when the state file exists but fails JSON parsing or validation,
`loadState` first writes the file's contents to the timestamped backup
path, leaves the original file untouched (it is never deleted), reports
the result invalid-but-backed-up, and `getStatus` reports `idle`. -/
theorem C7_loadState_backup (fs : FS) (statePath timestamp : String)
    (parse : String → Option JsonVal) (content : String)
    (hfile : fsRead fs statePath = some content)
    (hbad : parse content = none ∨
      ∃ j, parse content = some j ∧ validateState j = false) :
    fsRead (loadState fs statePath timestamp parse).1
        (statePath ++ ".corrupted." ++ timestamp) = some content ∧
    fsRead (loadState fs statePath timestamp parse).1 statePath = some content ∧
    (loadState fs statePath timestamp parse).2.valid = false ∧
    (loadState fs statePath timestamp parse).2.backedUp = true ∧
    getStatusAfterLoad fs statePath timestamp parse = .idle := by
  have hne : statePath ≠ statePath ++ ".corrupted." ++ timestamp := by
    intro h
    have hlen := congrArg String.length h
    simp only [String.length_append] at hlen
    have : (".corrupted." : String).length = 11 := by decide
    omega
  have hload : (loadState fs statePath timestamp parse).1
        = fsWrite fs (statePath ++ ".corrupted." ++ timestamp) content ∧
      (loadState fs statePath timestamp parse).2 = ⟨false, none, true⟩ := by
    rcases hbad with hnone | ⟨j, hsome, hinvalid⟩
    · simp [loadState, hfile, hnone, backupCorruptedState]
    · simp [loadState, hfile, hsome, hinvalid, backupCorruptedState]
  refine ⟨?_, ?_, ?_, ?_, ?_⟩
  · rw [hload.1]
    simp [fsRead, fsWrite, List.lookup]
  · rw [hload.1]
    simp only [fsRead, fsWrite, List.lookup]
    rw [show (statePath == statePath ++ ".corrupted." ++ timestamp) = false from
      beq_eq_false_iff_ne.mpr hne]
    exact hfile
  · rw [hload.2]
  · rw [hload.2]
  · simp [getStatusAfterLoad, hload.2]

/-- Witness: a state file holding unparsable text. -/
theorem C7_loadState_backup_witness :
    fsRead (loadState ⟨[("m/migration-state.json", "garbage")]⟩ "m/migration-state.json"
        "T" (fun _ => none)).1
        ("m/migration-state.json" ++ ".corrupted." ++ "T") = some "garbage" ∧
    fsRead (loadState ⟨[("m/migration-state.json", "garbage")]⟩ "m/migration-state.json"
        "T" (fun _ => none)).1 "m/migration-state.json" = some "garbage" ∧
    (loadState ⟨[("m/migration-state.json", "garbage")]⟩ "m/migration-state.json"
        "T" (fun _ => none)).2.valid = false ∧
    (loadState ⟨[("m/migration-state.json", "garbage")]⟩ "m/migration-state.json"
        "T" (fun _ => none)).2.backedUp = true ∧
    getStatusAfterLoad ⟨[("m/migration-state.json", "garbage")]⟩ "m/migration-state.json"
        "T" (fun _ => none) = .idle :=
  C7_loadState_backup ⟨[("m/migration-state.json", "garbage")]⟩ "m/migration-state.json"
    "T" (fun _ => none) "garbage" (by rfl) (Or.inl rfl)

/-! ## Error-message redaction (`AgentExecutor.safeErrorMsg`,
`packages/runtime/src/executor/index.ts`) -/

/-- JS `\s` (the whitespace characters relevant here). -/
def isJsSpace (c : Char) : Bool :=
  c = ' ' || c = '\t' || c = '\n' || c = '\r' || c = '\x0b' || c = '\x0c'

/-- An ASCII letter (`/[A-Z]/i`). -/
def isAsciiLetter (c : Char) : Bool :=
  ('a' ≤ c && c ≤ 'z') || ('A' ≤ c && c ≤ 'Z')

/-- The bearer-token alphabet `[a-zA-Z0-9_-]`. -/
def isTokenChar (c : Char) : Bool :=
  ('a' ≤ c && c ≤ 'z') || ('A' ≤ c && c ≤ 'Z') || ('0' ≤ c && c ≤ '9') || c = '_' || c = '-'

/-- `msg.replace(/[A-Z]:\\[^\s]+/gi, '[路径]')`: a drive letter, `:`, `\`,
then one or more non-whitespace characters, matched greedily, scanning left
to right and resuming after each match. -/
def pathRedact : List Char → List Char
  | [] => []
  | [c1] => [c1]
  | [c1, c2] => [c1, c2]
  | c1 :: c2 :: c3 :: cs3 =>
    if isAsciiLetter c1 && c2 = ':' && c3 = '\\' &&
        !(cs3.takeWhile fun c => !isJsSpace c).isEmpty then
      "[路径]".toList ++ pathRedact (cs3.dropWhile fun c => !isJsSpace c)
    else c1 :: pathRedact (c2 :: c3 :: cs3)
termination_by l => l.length
decreasing_by
  · have := length_dropWhile_le (fun c => !isJsSpace c) cs3
    simp only [List.length_cons]
    omega
  · simp only [List.length_cons]
    omega

/-- `msg.replace(/[a-zA-Z0-9_-]{20,}/g, '[密钥]')`: replace every maximal
run of 20 or more token-alphabet characters. -/
def tokenRedact : List Char → List Char
  | [] => []
  | c :: cs =>
    if isTokenChar c then
      (if (c :: cs.takeWhile isTokenChar).length ≥ 20 then "[密钥]".toList
       else c :: cs.takeWhile isTokenChar) ++ tokenRedact (cs.dropWhile isTokenChar)
    else c :: tokenRedact cs
termination_by l => l.length
decreasing_by
  · have := length_dropWhile_le isTokenChar cs
    simp only [List.length_cons]
    omega
  · simp only [List.length_cons]
    omega

/-- `AgentExecutor.safeErrorMsg` on an `Error`'s message: redact Windows
drive paths, then 20+-character token runs. -/
def safeErrorMsg (msg : List Char) : List Char := tokenRedact (pathRedact msg)

/-- No run of 20 consecutive bearer-alphabet characters occurs. -/
def noLongTokenRun (l : List Char) : Prop :=
  ∀ r, r <:+: l → (∀ c ∈ r, isTokenChar c = true) → r.length < 20

theorem infix_append_split {α : Type} {r a b : List α} (h : r <:+: a ++ b) :
    r <:+: a ∨ r <:+: b ∨ ∃ r1 r2, r = r1 ++ r2 ∧ r1 <:+ a ∧ r2 <+: b := by
  obtain ⟨s, t, hst⟩ := h
  have h1 : s ++ (r ++ t) = a ++ b := by simpa [List.append_assoc] using hst
  rcases List.append_eq_append_iff.mp h1 with ⟨w, ha, hb⟩ | ⟨w, hs, hb⟩
  · rcases List.append_eq_append_iff.mp hb with ⟨u, hw, ht⟩ | ⟨u, hr, hbu⟩
    · left
      exact ⟨s, u, by rw [ha, hw, List.append_assoc]⟩
    · right; right
      exact ⟨w, u, hr, ⟨s, ha.symm⟩, ⟨t, hbu.symm⟩⟩
  · right; left
    exact ⟨w, t, by rw [hb, List.append_assoc]⟩

theorem noLongTokenRun_nil : noLongTokenRun [] := by
  intro r hr _
  have := List.sublist_nil.mp hr.sublist
  simp [this]

theorem noLong_append_nontoken {x y : List Char} (hx : ∀ c ∈ x, isTokenChar c = false)
    (hy : noLongTokenRun y) : noLongTokenRun (x ++ y) := by
  intro r hr htok
  rcases infix_append_split hr with h | h | ⟨r1, r2, hr12, h1, h2⟩
  · cases hr' : r with
    | nil => simp
    | cons c rs =>
      exfalso
      rw [hr'] at h htok
      have hcx : c ∈ x := h.subset (List.mem_cons_self c rs)
      have hfalse := hx c hcx
      rw [htok c (List.mem_cons_self c rs)] at hfalse
      exact absurd hfalse (by simp)
  · exact hy r h htok
  · have hr1 : r1 = [] := by
      cases h1' : r1 with
      | nil => rfl
      | cons c rs =>
        exfalso
        rw [h1'] at h1
        have hcx : c ∈ x := h1.sublist.subset (List.mem_cons_self c rs)
        have hcr : c ∈ r := by
          rw [hr12, h1']
          exact List.mem_append_left _ (List.mem_cons_self c rs)
        have hfalse := hx c hcx
        rw [htok c hcr] at hfalse
        exact absurd hfalse (by simp)
    rw [hr1, List.nil_append] at hr12
    exact hy r (hr12 ▸ h2.isInfix) htok

theorem noLong_append_short {x y : List Char} (hxlen : x.length < 20)
    (hy : noLongTokenRun y)
    (hyhead : ∀ c, y.head? = some c → isTokenChar c = false) :
    noLongTokenRun (x ++ y) := by
  intro r hr htok
  rcases infix_append_split hr with h | h | ⟨r1, r2, hr12, h1, h2⟩
  · exact lt_of_le_of_lt h.length_le hxlen
  · exact hy r h htok
  · cases h2' : r2 with
    | nil =>
      rw [h2', List.append_nil] at hr12
      subst hr12
      exact lt_of_le_of_lt h1.sublist.length_le hxlen
    | cons c rs =>
      exfalso
      obtain ⟨t', ht'⟩ := h2
      rw [h2'] at ht'
      have hhead : y.head? = some c := by rw [← ht']; rfl
      have hc := hyhead c hhead
      have hcr : c ∈ r := by
        rw [hr12, h2']
        exact List.mem_append_right _ (List.mem_cons_self c rs)
      rw [htok c hcr] at hc
      exact absurd hc (by simp)

theorem tokenRedact_head {l : List Char}
    (hl : ∀ c, l.head? = some c → isTokenChar c = false) :
    ∀ c, (tokenRedact l).head? = some c → isTokenChar c = false := by
  cases l with
  | nil => intro c hc; simp [tokenRedact] at hc
  | cons d ds =>
    have hd : isTokenChar d = false := hl d rfl
    intro c hc
    rw [tokenRedact, if_neg (by simp [hd])] at hc
    simp only [List.head?_cons, Option.some.injEq] at hc
    rw [← hc]
    exact hd

theorem tokenRedact_noLongRun : ∀ n (l : List Char), l.length ≤ n →
    noLongTokenRun (tokenRedact l) := by
  intro n
  induction n with
  | zero =>
    intro l hl
    have : l = [] := List.eq_nil_of_length_eq_zero (Nat.le_zero.mp hl)
    subst this
    rw [tokenRedact]
    exact noLongTokenRun_nil
  | succ n ih =>
    intro l hl
    cases l with
    | nil => rw [tokenRedact]; exact noLongTokenRun_nil
    | cons c cs =>
      simp only [List.length_cons] at hl
      by_cases hc : isTokenChar c = true
      · have hrest := length_dropWhile_le isTokenChar cs
        have hihrest : noLongTokenRun (tokenRedact (cs.dropWhile isTokenChar)) :=
          ih _ (by omega)
        have hhead : ∀ c', (tokenRedact (cs.dropWhile isTokenChar)).head? = some c' →
            isTokenChar c' = false := by
          apply tokenRedact_head
          intro c' hc'
          cases hdw : cs.dropWhile isTokenChar with
          | nil => rw [hdw] at hc'; simp at hc'
          | cons d ds =>
            rw [hdw] at hc'
            simp only [List.head?_cons, Option.some.injEq] at hc'
            rw [← hc']
            exact dropWhile_head_false isTokenChar cs hdw
        rw [tokenRedact, if_pos hc]
        by_cases hlen : (c :: cs.takeWhile isTokenChar).length ≥ 20
        · rw [if_pos hlen]
          exact noLong_append_nontoken (by decide) hihrest
        · rw [if_neg hlen]
          exact noLong_append_short (Nat.lt_of_not_le hlen) hihrest hhead
      · rw [tokenRedact, if_neg hc]
        have hih : noLongTokenRun (tokenRedact cs) := ih cs (by omega)
        have := noLong_append_nontoken (x := [c])
          (fun c' hc' => by
            rw [List.mem_singleton.mp hc']
            simpa using hc) hih
        simpa using this

/-- C8 (amended): every run of bearer-alphabet characters in the output of
`safeErrorMsg` is shorter than 20, i.e. the 20+-character bearer-like
tokens are all removed. (The path replacement only targets Windows
drive-letter paths: see the counterexample for Unix paths.) -/
theorem C8_safeErrorMsg_redacts_tokens (msg r : List Char)
    (hr : r <:+: safeErrorMsg msg) (htok : ∀ c ∈ r, isTokenChar c = true) :
    r.length < 20 :=
  tokenRedact_noLongRun (pathRedact msg).length (pathRedact msg) le_rfl r hr htok

/-- Witness: the redaction guarantee applied to a concrete message (with
the empty run as infix). -/
theorem C8_safeErrorMsg_redacts_tokens_witness :
    ([] : List Char).length < 20 :=
  C8_safeErrorMsg_redacts_tokens "boom".toList [] List.nil_infix (by simp)

/-- C8 counterexample: an absolute (Unix-style) filesystem path survives
`safeErrorMsg` unchanged — the path replacement only matches Windows
drive-letter paths (`[A-Z]:\...`), and `/etc/shadow` contains no
20-character token run. -/
theorem C8_safeErrorMsg_cex :
    safeErrorMsg "open /etc/shadow failed".toList = "open /etc/shadow failed".toList ∧
    "open /etc/shadow failed".toList
      = "open ".toList ++ "/etc/shadow".toList ++ " failed".toList := by
  constructor
  · simp [safeErrorMsg, pathRedact, tokenRedact, isAsciiLetter, isJsSpace, isTokenChar]
  · rfl

/-! ## Executor session history (`AgentExecutor`,
`packages/runtime/src/executor/index.ts`) -/

/-- `MAX_SESSIONS`. -/
def MAX_SESSIONS : Nat := 1000

/-- `MAX_HISTORY_PER_SESSION`. -/
def MAX_HISTORY_PER_SESSION : Nat := 50

/-- Message roles. -/
inductive Role where
  | system | user | assistant | tool
deriving DecidableEq, Repr

/-- An `LLMMessage` (tool-call ids and tool-call payloads do not affect
history bookkeeping and are omitted). -/
structure LLMMessage where
  role : Role
  content : String
deriving DecidableEq, Repr

/-- JS `Map.prototype.set` on an insertion-ordered association list:
update in place when the key exists, else append. -/
def mapSet (m : List (String × List LLMMessage)) (k : String) (v : List LLMMessage) :
    List (String × List LLMMessage) :=
  if m.any fun kv => kv.1 = k then
    m.map fun kv => if kv.1 = k then (k, v) else kv
  else m ++ [(k, v)]

/-- JS `Map.prototype.delete`. -/
def mapDelete (m : List (String × List LLMMessage)) (k : String) :
    List (String × List LLMMessage) :=
  m.filter fun kv => ¬ kv.1 = k

/-- `AgentExecutor.trimSessions`: while over `MAX_SESSIONS`, delete the
first `size - MAX_SESSIONS` keys in insertion order (the oldest
sessions). -/
def trimSessions (m : List (String × List LLMMessage)) :
    List (String × List LLMMessage) :=
  if m.length ≤ MAX_SESSIONS then m
  else ((m.map Prod.fst).take (m.length - MAX_SESSIONS)).foldl mapDelete m

/-- The history trim in `AgentExecutor.updateHistory`:
`history.slice(-MAX_HISTORY_PER_SESSION)` when over the cap. -/
def trimHistory (history : List LLMMessage) : List LLMMessage :=
  if history.length > MAX_HISTORY_PER_SESSION then
    history.drop (history.length - MAX_HISTORY_PER_SESSION)
  else history

/-- `AgentExecutor.updateHistory`: store the trimmed history, then trim
sessions. -/
def updateHistory (m : List (String × List LLMMessage)) (sessionKey : String)
    (history : List LLMMessage) : List (String × List LLMMessage) :=
  trimSessions (mapSet m sessionKey (trimHistory history))

theorem trimHistory_length_le (history : List LLMMessage) :
    (trimHistory history).length ≤ MAX_HISTORY_PER_SESSION := by
  rw [trimHistory]
  split
  · rw [List.length_drop]
    omega
  · omega

theorem mapSet_mem {m : List (String × List LLMMessage)} {k : String}
    {v : List LLMMessage} {kv : String × List LLMMessage} (h : kv ∈ mapSet m k v) :
    kv.2 = v ∨ kv ∈ m := by
  rw [mapSet] at h
  split at h
  · obtain ⟨kv', hkv', heq⟩ := List.mem_map.mp h
    by_cases hk : kv'.1 = k
    · rw [if_pos hk] at heq
      left
      rw [← heq]
    · rw [if_neg hk] at heq
      right
      rw [← heq]
      exact hkv'
  · rcases List.mem_append.mp h with h' | h'
    · right; exact h'
    · left
      rw [List.mem_singleton.mp h']

theorem mapSet_length_existing {m : List (String × List LLMMessage)} {k : String}
    (v : List LLMMessage) (h : m.any (fun kv => kv.1 = k) = true) :
    (mapSet m k v).length = m.length := by
  rw [mapSet, if_pos h, List.length_map]

theorem mapSet_length_new {m : List (String × List LLMMessage)} {k : String}
    (v : List LLMMessage) (h : ¬ m.any (fun kv => kv.1 = k) = true) :
    (mapSet m k v).length = m.length + 1 := by
  rw [mapSet, if_neg h, List.length_append, List.length_cons, List.length_nil]

theorem mapSet_keys_existing {m : List (String × List LLMMessage)} {k : String}
    (v : List LLMMessage) (h : m.any (fun kv => kv.1 = k) = true) :
    (mapSet m k v).map Prod.fst = m.map Prod.fst := by
  rw [mapSet, if_pos h, List.map_map]
  refine List.map_congr_left fun kv _ => ?_
  by_cases hk : kv.1 = k
  · simp [hk]
  · simp [hk]

theorem mapSet_keys_new {m : List (String × List LLMMessage)} {k : String}
    (v : List LLMMessage) (h : ¬ m.any (fun kv => kv.1 = k) = true) :
    (mapSet m k v).map Prod.fst = m.map Prod.fst ++ [k] := by
  rw [mapSet, if_neg h, List.map_append]
  rfl

theorem not_any_key {m : List (String × List LLMMessage)} {k : String}
    (h : ¬ m.any (fun kv => kv.1 = k) = true) : k ∉ m.map Prod.fst := by
  intro hk
  obtain ⟨kv, hkv, heq⟩ := List.mem_map.mp hk
  exact h (List.any_eq_true.mpr ⟨kv, hkv, by simp [heq]⟩)

theorem mapSet_keys_nodup {m : List (String × List LLMMessage)} {k : String}
    (v : List LLMMessage) (hnodup : (m.map Prod.fst).Nodup) :
    ((mapSet m k v).map Prod.fst).Nodup := by
  by_cases h : m.any (fun kv => kv.1 = k) = true
  · rw [mapSet_keys_existing v h]
    exact hnodup
  · rw [mapSet_keys_new v h]
    simp only [List.nodup_append, List.nodup_cons, List.not_mem_nil, not_false_eq_true,
      List.nodup_nil, and_true, true_and]
    refine ⟨hnodup, ?_⟩
    intro a ha hb
    rw [List.mem_singleton.mp hb] at ha
    exact not_any_key h ha

theorem mapDelete_eq_self {m : List (String × List LLMMessage)} {k : String}
    (h : k ∉ m.map Prod.fst) : mapDelete m k = m := by
  rw [mapDelete, List.filter_eq_self]
  intro kv hkv
  simp only [decide_eq_true_eq]
  intro hk
  exact h (List.mem_map.mpr ⟨kv, hkv, hk⟩)

theorem foldl_mapDelete_take {m : List (String × List LLMMessage)}
    (hnodup : (m.map Prod.fst).Nodup) (j : Nat) :
    ((m.map Prod.fst).take j).foldl mapDelete m = m.drop j := by
  induction m generalizing j with
  | nil => cases j <;> simp [mapDelete]
  | cons kv m' ih =>
    cases j with
    | zero => simp
    | succ j' =>
      simp only [List.map_cons, List.take_succ_cons, List.foldl_cons, List.drop_succ_cons]
      simp only [List.map_cons, List.nodup_cons] at hnodup
      have hdel : mapDelete (kv :: m') kv.1 = m' := by
        rw [mapDelete, List.filter_cons]
        simp only [not_true, decide_False, Bool.false_eq_true, if_false]
        refine List.filter_eq_self.mpr fun kv' hkv' => ?_
        simp only [decide_eq_true_eq]
        intro hk
        exact hnodup.1 (List.mem_map.mpr ⟨kv', hkv', hk⟩)
      rw [hdel]
      exact ih hnodup.2 j'

theorem trimSessions_eq_drop {m : List (String × List LLMMessage)}
    (hnodup : (m.map Prod.fst).Nodup) :
    trimSessions m = m.drop (m.length - MAX_SESSIONS) := by
  rw [trimSessions]
  split
  · rw [Nat.sub_eq_zero_of_le (by omega), List.drop_zero]
  · exact foldl_mapDelete_take hnodup _

/-- The executor's session-map invariant: every stored history is at most
50 turns, at most 1000 sessions, and session keys are distinct. -/
def SessionInv (m : List (String × List LLMMessage)) : Prop :=
  (∀ kv ∈ m, kv.2.length ≤ MAX_HISTORY_PER_SESSION) ∧
  m.length ≤ MAX_SESSIONS ∧ (m.map Prod.fst).Nodup

theorem sessionInv_updateHistory {m : List (String × List LLMMessage)}
    (hm : SessionInv m) (sessionKey : String) (history : List LLMMessage) :
    SessionInv (updateHistory m sessionKey history) := by
  obtain ⟨hlen50, hsize, hnodup⟩ := hm
  have hnodup' := mapSet_keys_nodup (m := m) (k := sessionKey) (trimHistory history) hnodup
  have hmem' : ∀ kv ∈ mapSet m sessionKey (trimHistory history),
      kv.2.length ≤ MAX_HISTORY_PER_SESSION := by
    intro kv hkv
    rcases mapSet_mem hkv with h | h
    · rw [h]
      exact trimHistory_length_le history
    · exact hlen50 kv h
  have hsize' : (mapSet m sessionKey (trimHistory history)).length ≤ MAX_SESSIONS + 1 := by
    by_cases h : m.any (fun kv => kv.1 = sessionKey) = true
    · rw [mapSet_length_existing _ h]; omega
    · rw [mapSet_length_new _ h]; omega
  rw [updateHistory, trimSessions_eq_drop hnodup']
  refine ⟨?_, ?_, ?_⟩
  · intro kv hkv
    exact hmem' kv ((List.drop_sublist _ _).subset hkv)
  · rw [List.length_drop]
    omega
  · exact hnodup'.sublist ((List.drop_sublist _ _).map Prod.fst)

theorem sessionInv_foldl (ops : List (String × List LLMMessage))
    {m : List (String × List LLMMessage)} (hm : SessionInv m) :
    SessionInv (ops.foldl (fun m op => updateHistory m op.1 op.2) m) := by
  induction ops generalizing m with
  | nil => exact hm
  | cons op ops ih =>
    rw [List.foldl_cons]
    exact ih (sessionInv_updateHistory hm op.1 op.2)

/-- C9: after any sequence of `updateHistory` calls starting from the empty
session map, every stored history has length ≤ 50 and at most 1000 sessions
are retained; moreover on any distinct-keyed map the session trim drops
exactly the oldest `size - 1000` sessions (insertion order). -/
theorem C9_session_bounds (ops : List (String × List LLMMessage)) :
    (∀ kv ∈ ops.foldl (fun m op => updateHistory m op.1 op.2) [],
      kv.2.length ≤ MAX_HISTORY_PER_SESSION) ∧
    (ops.foldl (fun m op => updateHistory m op.1 op.2) []).length ≤ MAX_SESSIONS ∧
    (∀ m : List (String × List LLMMessage), (m.map Prod.fst).Nodup →
      trimSessions m = m.drop (m.length - MAX_SESSIONS)) := by
  have hinv := sessionInv_foldl ops (m := [])
    ⟨by simp, by simp [MAX_SESSIONS], by simp⟩
  exact ⟨hinv.1, hinv.2.1, fun m hm => trimSessions_eq_drop hm⟩

/-- Witness: the trim characterisation applied to a concrete two-session
map (below the cap, so nothing is dropped). -/
theorem C9_session_bounds_witness :
    trimSessions ([("a", []), ("b", [])] : List (String × List LLMMessage))
      = ([("a", []), ("b", [])] : List (String × List LLMMessage)).drop
          (([("a", []), ("b", [])] : List (String × List LLMMessage)).length - MAX_SESSIONS) :=
  (C9_session_bounds []).2.2 ([("a", []), ("b", [])] : List (String × List LLMMessage))
    (by decide)

theorem lookup_replace {m : List (String × List LLMMessage)} {k : String}
    (v : List LLMMessage) (h : m.any (fun kv => kv.1 = k) = true) :
    List.lookup k (m.map fun kv => if kv.1 = k then (k, v) else kv) = some v := by
  induction m with
  | nil => simp at h
  | cons kv m' ih =>
    simp only [List.map_cons]
    by_cases hk : kv.1 = k
    · rw [if_pos hk]
      simp [List.lookup]
    · rw [if_neg hk]
      simp only [List.lookup]
      rw [show (k == kv.1) = false from beq_eq_false_iff_ne.mpr fun he => hk he.symm]
      apply ih
      simp only [List.any_cons, Bool.or_eq_true, decide_eq_true_eq] at h
      rcases h with h | h
      · exact absurd h hk
      · exact h

theorem lookup_append_new {m : List (String × List LLMMessage)} {k : String}
    (v : List LLMMessage) (h : k ∉ m.map Prod.fst) :
    List.lookup k (m ++ [(k, v)]) = some v := by
  induction m with
  | nil => simp [List.lookup]
  | cons kv m' ih =>
    simp only [List.map_cons, List.mem_cons] at h
    push_neg at h
    simp only [List.cons_append, List.lookup]
    rw [show (k == kv.1) = false from beq_eq_false_iff_ne.mpr h.1]
    exact ih h.2

theorem lookup_mapSet_self (m : List (String × List LLMMessage)) (k : String)
    (v : List LLMMessage) : List.lookup k (mapSet m k v) = some v := by
  by_cases h : m.any (fun kv => kv.1 = k) = true
  · rw [mapSet, if_pos h]
    exact lookup_replace v h
  · rw [mapSet, if_neg h]
    exact lookup_append_new v (not_any_key h)

theorem lookup_updateHistory_self {m : List (String × List LLMMessage)}
    (hnodup : (m.map Prod.fst).Nodup) (hsize : m.length ≤ MAX_SESSIONS)
    (k : String) (history : List LLMMessage) :
    List.lookup k (updateHistory m k history) = some (trimHistory history) := by
  rw [updateHistory, trimSessions_eq_drop (mapSet_keys_nodup _ hnodup)]
  by_cases h : m.any (fun kv => kv.1 = k) = true
  · have hlen := mapSet_length_existing (m := m) (k := k) (trimHistory history) h
    rw [show (mapSet m k (trimHistory history)).length - MAX_SESSIONS = 0 by omega,
      List.drop_zero]
    exact lookup_mapSet_self m k _
  · have hlen := mapSet_length_new (m := m) (k := k) (trimHistory history) h
    by_cases hfull : m.length = MAX_SESSIONS
    · rw [show (mapSet m k (trimHistory history)).length - MAX_SESSIONS = 1 by omega]
      rw [mapSet, if_neg h]
      cases m with
      | nil => simp [MAX_SESSIONS] at hfull
      | cons kv m' =>
        simp only [List.cons_append, List.drop_one, List.tail_cons]
        apply lookup_append_new
        intro hk
        exact not_any_key h (by
          simp only [List.map_cons]
          exact List.mem_cons_of_mem _ hk)
    · rw [show (mapSet m k (trimHistory history)).length - MAX_SESSIONS = 0 by omega,
        List.drop_zero]
      exact lookup_mapSet_self m k _

/-- `AgentExecutor.buildMessages`: optional system turn, then the session
history, then the current user turn (media folding does not change the
sequence shape). -/
def buildMessages (systemPrompt : Option String) (history : List LLMMessage)
    (userContent : String) : List LLMMessage :=
  (match systemPrompt with
   | some s => [⟨.system, s⟩]
   | none => []) ++ history ++ [⟨.user, userContent⟩]

/-- `AgentExecutor.processMessage`'s session update on a successful turn:
fetch the session history, build the working sequence (to which the ReAct
loop appends assistant/tool turns), then store `messages.slice(1)` via
`updateHistory`. -/
def processMessageStore (m : List (String × List LLMMessage)) (sessionKey : String)
    (systemPrompt : Option String) (userContent : String)
    (loopAppends : List LLMMessage) : List (String × List LLMMessage) :=
  updateHistory m sessionKey
    ((buildMessages systemPrompt ((List.lookup sessionKey m).getD []) userContent
      ++ loopAppends).drop 1)

/-- C10: on a successful turn the executor stores, as the session's new
history, the assembled working sequence with exactly its first element
removed (then trimmed to the last 50). When no system prompt is configured
and the prior history is non-empty, the element removed is the oldest
history turn — the user turn and the loop-appended turns all survive — not
a system turn. -/
theorem C10_processMessage_slice (m : List (String × List LLMMessage))
    (sessionKey : String) (systemPrompt : Option String) (userContent : String)
    (loopAppends : List LLMMessage)
    (hnodup : (m.map Prod.fst).Nodup) (hsize : m.length ≤ MAX_SESSIONS) :
    List.lookup sessionKey
        (processMessageStore m sessionKey systemPrompt userContent loopAppends)
      = some (trimHistory ((buildMessages systemPrompt
          ((List.lookup sessionKey m).getD []) userContent ++ loopAppends).drop 1)) ∧
    (∀ h hs, systemPrompt = none → (List.lookup sessionKey m).getD [] = h :: hs →
      (buildMessages systemPrompt ((List.lookup sessionKey m).getD []) userContent
          ++ loopAppends).drop 1
        = hs ++ [⟨.user, userContent⟩] ++ loopAppends) := by
  constructor
  · exact lookup_updateHistory_self hnodup hsize sessionKey _
  · intro h hs hsys hhist
    rw [hsys, hhist]
    simp [buildMessages]

/-- Witness: a concrete session with two history turns, no system prompt,
and one loop-appended assistant turn. -/
theorem C10_processMessage_slice_witness :
    List.lookup "feishu:1"
        (processMessageStore
          ([("feishu:1", [⟨.user, "hi"⟩, ⟨.assistant, "yo"⟩])] :
            List (String × List LLMMessage))
          "feishu:1" none "q" ([⟨.assistant, "a"⟩] : List LLMMessage))
      = some (trimHistory ((buildMessages none
          ((List.lookup "feishu:1"
            ([("feishu:1", [⟨.user, "hi"⟩, ⟨.assistant, "yo"⟩])] :
              List (String × List LLMMessage))).getD [])
          "q" ++ ([⟨.assistant, "a"⟩] : List LLMMessage)).drop 1)) ∧
    (∀ h hs, (none : Option String) = none →
      (List.lookup "feishu:1"
          ([("feishu:1", [⟨.user, "hi"⟩, ⟨.assistant, "yo"⟩])] :
            List (String × List LLMMessage))).getD [] = h :: hs →
      (buildMessages none
          ((List.lookup "feishu:1"
            ([("feishu:1", [⟨.user, "hi"⟩, ⟨.assistant, "yo"⟩])] :
              List (String × List LLMMessage))).getD [])
          "q" ++ ([⟨.assistant, "a"⟩] : List LLMMessage)).drop 1
        = hs ++ [⟨.user, "q"⟩] ++ ([⟨.assistant, "a"⟩] : List LLMMessage)) :=
  C10_processMessage_slice
    ([("feishu:1", [⟨.user, "hi"⟩, ⟨.assistant, "yo"⟩])] : List (String × List LLMMessage))
    "feishu:1" none "q" ([⟨.assistant, "a"⟩] : List LLMMessage) (by decide) (by decide)
